import Mathlib

/-!
Verification of `src/mnf.c` (move-nested-files): a shallow embedding of the
filter engine, unique-name allocator, job queue, relocation executor, directory
walker, empty-directory pruner and main exit logic, with theorems checking the
natural-language specification against the code.

Strings from the C code are modelled as `List Char` (C strings are
NUL-terminated byte arrays; no NUL appears inside a path).  Filesystem
side effects are modelled by explicit oracles (existence predicates,
directory listings, syscall outcomes) and by traces of attempted
mutating calls.
-/

namespace Mnf



/-! ## Small utilities (mnf.c lines 66-92) -/

/-- Embeds `path_join` (mnf.c:67): `a ++ "/" ++ b`. -/
def path_join (a b : List Char) : List Char := a ++ '/' :: b

/-- Index of the last occurrence of `c` (C `strrchr`), as an offset. -/
def lastIdxOf (c : Char) : List Char → Option Nat
  | [] => none
  | a :: rest =>
    match lastIdxOf c rest with
    | some i => some (i + 1)
    | none => if a = c then some 0 else none

/-- Embeds `basename_const` (mnf.c:82): everything after the last `/`, or the whole
string when there is no slash. -/
def basename_const (p : List Char) : List Char :=
  match lastIdxOf '/' p with
  | some i => p.drop (i + 1)
  | none => p

/-! ## Filter engine (mnf.c lines 320-371) -/

/-- Embeds `ext_of` (mnf.c:320): pointer just past the last dot, `NULL` when there is
no dot or the last dot is the first character. -/
def ext_of (name : List Char) : Option (List Char) :=
  match lastIdxOf '.' name with
  | some (i + 1) => some (name.drop (i + 2))
  | _ => none

/-- ASCII lowercasing as done inline in `list_contains_ci` (mnf.c:334). -/
def lowerC (c : Char) : Char :=
  if 'A' ≤ c ∧ c ≤ 'Z' then Char.ofNat (c.toNat + 32) else c

/-- The inner comparison of `list_contains_ci` (mnf.c:329-338): equal length
and case-insensitively equal characters. -/
def eqCI : List Char → List Char → Bool
  | [], [] => true
  | a :: as, b :: bs => (lowerC a = lowerC b) && eqCI as bs
  | _, _ => false

/-- Embeds `list_contains_ci` (mnf.c:325): some entry equals the needle
case-insensitively.  (The C `NULL` needle guard is handled by callers, which
test extension presence first.) -/
def list_contains_ci (l : List (List Char)) (needle : List Char) : Bool :=
  l.any (fun a => eqCI a needle)

/-- Embeds `match_any_glob` (mnf.c:342): vacuously true on an empty pattern set.
`fm pat s` abstracts libc `fnmatch(pat, s, ...) == 0`. -/
def match_any_glob (fm : List Char → List Char → Bool) (rel : List Char)
    (globs : List (List Char)) : Bool :=
  match globs with
  | [] => true
  | _ => globs.any (fun g => fm g rel)

/-- Embeds `match_any_exclude` (mnf.c:350): vacuously false on an empty pattern set. -/
def match_any_exclude (fm : List Char → List Char → Bool) (rel : List Char)
    (globs : List (List Char)) : Bool :=
  globs.any (fun g => fm g rel)

/-- Collision mode (mnf.c:157). -/
inductive mode_tg where
  | MODE_RENAME
  | MODE_SKIP
  | MODE_OVERWRITE
deriving DecidableEq, Repr

/-- Embeds `options_t` (mnf.c:159-180), the fields the core reads.  Pattern and
extension lists carry their counts implicitly as list length. -/
structure options_t where
  mode : mode_tg := .MODE_RENAME
  min_depth : Nat := 1
  max_depth : Int := -1
  dry_run : Bool := false
  progress : Bool := false
  preserve_times : Bool := true
  include_symlinks : Bool := false
  prune_empty_dirs : Bool := false
  min_size : Int := 0
  has_min_size : Bool := false
  max_size : Int := 0
  has_max_size : Bool := false
  newer_than : Int := 0
  has_newer : Bool := false
  older_than : Int := 0
  has_older : Bool := false
  includes : List (List Char) := []
  excludes : List (List Char) := []
  allow_ext : List (List Char) := []
  deny_ext : List (List Char) := []
deriving Repr

/-- The `lstat` fields the filter reads. -/
structure StatRec where
  st_size : Int
  st_mtime : Int
deriving DecidableEq, Repr

/-- Embeds `file_passes_filters` (mnf.c:358-371), guard clause by guard clause. -/
def file_passes_filters (fm : List Char → List Char → Bool) (o : options_t)
    (rel : List Char) (st : StatRec) (name : List Char) : Bool :=
  if !o.includes.isEmpty && !match_any_glob fm rel o.includes then false
  else if match_any_exclude fm rel o.excludes then false
  else if !o.allow_ext.isEmpty &&
      ((ext_of name).isNone ||
       !list_contains_ci o.allow_ext ((ext_of name).getD [])) then false
  else if (ext_of name).isSome && !o.deny_ext.isEmpty &&
      list_contains_ci o.deny_ext ((ext_of name).getD []) then false
  else if o.has_min_size && decide (st.st_size < o.min_size) then false
    else if o.has_max_size && decide (st.st_size > o.max_size) then false
    else if o.has_newer && decide (st.st_mtime < o.newer_than) then false
    else if o.has_older && decide (st.st_mtime > o.older_than) then false
    else true

/-! ## Unique-name allocator (mnf.c lines 375-410) -/

/-- Embeds `split_name` (mnf.c:375-386): branch for branch.  The extension component
keeps its leading dot, exactly as the C code copies from `dot` onward. -/
def split_name (name : List Char) : List Char × List Char :=
  if name.head? = some '.' ∧
      (lastIdxOf '.' name = none ∨ lastIdxOf '.' name = some 0) then (name, [])
  else
    match lastIdxOf '.' name with
    | some (i + 1) => (name.take (i + 1), name.drop (i + 1))
    | _ => (name, [])

/-- The specification's wording of the split ("splits the name into stem and
extension at the last dot; a name beginning with a dot and containing no
further dot has no extension, the dot staying in the stem"), for comparison
with `split_name`. -/
def splitNameSpec (name : List Char) : List Char × List Char :=
  match lastIdxOf '.' name with
  | some (i + 1) => (name.take (i + 1), name.drop (i + 1))
  | _ => (name, [])

/-- The numbered candidate `dest_dir/base_N ++ ext` built by the loop body of
`unique_path` (mnf.c:392-408). -/
def cand (dest_dir base ext : List Char) (n : Nat) : List Char :=
  dest_dir ++ '/' :: (base ++ '_' :: (Nat.toDigits 10 n ++ ext))

/-- The `while (access(out, F_OK) == 0)` loop of `unique_path`, with explicit
fuel (the C loop is unbounded; on a finite filesystem it terminates).
`ex p` abstracts `access(p, F_OK) == 0` (a filesystem entry exists at `p`). -/
def uniqueLoop (ex : List Char → Bool) (dest_dir base ext : List Char) :
    Nat → Nat → Option (List Char)
  | 0, _ => none
  | fuel + 1, n =>
    let c := cand dest_dir base ext n
    if ex c then uniqueLoop ex dest_dir base ext fuel (n + 1) else some c

/-- Embeds `unique_path` (mnf.c:387-410): first candidate is `dest_dir/name`; while an
entry exists, try `dest_dir/base_N ++ ext` for N = 1, 2, ... -/
def unique_path (ex : List Char → Bool) (dest_dir name : List Char)
    (fuel : Nat) : Option (List Char) :=
  match split_name name with
  | (base, ext) =>
    if ex (path_join dest_dir name) then uniqueLoop ex dest_dir base ext fuel 1
    else some (path_join dest_dir name)

/-! ## Job queue (mnf.c lines 412-446)

The queue is a linked list with head/tail pointers plus a `done` flag, every
operation running under one mutex.  We model the mutex-protected state as
`QState` and each critical section as a state transition; an arbitrary
concurrent execution linearizes to a sequence of these transitions.  A
`pop_job` call that finds the queue empty with `done` unset waits on the
condition variable leaving the state unchanged (`PopRes.blocked`). -/

/-- Embeds `job_t` (mnf.c:413). -/
structure job_t where
  src_path : List Char
  rel_path : List Char
  depth : Nat
  is_symlink : Bool
deriving DecidableEq, Repr

/-- The mutex-protected queue state (mnf.c:415-420). -/
structure QState where
  jobs : List job_t
  done : Bool
deriving DecidableEq, Repr

/-- Embeds `push_job` (mnf.c:422): append at the tail. -/
def push_job (s : QState) (j : job_t) : QState :=
  { s with jobs := s.jobs ++ [j] }

/-- Result of one `pop_job` critical section. -/
inductive PopRes where
  | got (j : job_t)
  | eos
  | blocked
deriving DecidableEq, Repr

/-- One iteration of the `pop_job` loop under the mutex (mnf.c:431-443):
take the head if present; otherwise end-of-stream if `done`; otherwise wait
(state unchanged). -/
def pop_job (s : QState) : PopRes × QState :=
  match s.jobs with
  | j :: rest => (.got j, { s with jobs := rest })
  | [] => if s.done then (.eos, s) else (.blocked, s)

/-- Embeds `finish_jobs` (mnf.c:444): raise the one-shot done signal. -/
def finish_jobs (s : QState) : QState :=
  { s with done := true }

/-- A linearized queue operation. -/
inductive QOp where
  | push (j : job_t)
  | pop
  | finish
deriving DecidableEq, Repr

/-- Run a linearized sequence of queue operations, collecting the jobs the
pops received, in order. -/
def runQ : QState → List QOp → QState × List job_t
  | s, [] => (s, [])
  | s, .push j :: ops => runQ (push_job s j) ops
  | s, .finish :: ops => runQ (finish_jobs s) ops
  | s, .pop :: ops =>
    match pop_job s with
    | (.got j, s') =>
      match runQ s' ops with
      | (sf, got) => (sf, j :: got)
    | (_, s') => runQ s' ops

/-- The jobs pushed by a sequence of operations, in order. -/
def pushedOf (ops : List QOp) : List job_t :=
  ops.filterMap (fun op => match op with | .push j => some j | _ => none)

/-- Whether an operation is the done signal. -/
def isFinish (op : QOp) : Bool :=
  match op with | .finish => true | _ => false

/-- The operation sequence of `main` (mnf.c:672-675): the single producer
pushes every discovered job, then signals done exactly once, and the workers
drain with `k` pops. -/
def mainOps (js : List job_t) (k : Nat) : List QOp :=
  js.map QOp.push ++ QOp.finish :: List.replicate k QOp.pop

/-! ## Relocation executor (mnf.c lines 461-521)

Syscall outcomes are oracle inputs; the embedding returns the C return code,
the ordered trace of attempted mutating syscalls, and the number of bytes
added to the `bytes_copied` counter by `add_bytes` calls.  Read-only calls
(`open(src, O_RDONLY)`, `stat`, `readlink`, `access`) are not traced.  A
chunk whose `write` fails is not counted by `add_bytes` (the C code calls
`add_bytes` only after the chunk's write loop completes). -/

/-- An attempted mutating syscall of the executor. -/
inductive Act where
  | unlinkDst
  | rename
  | createDst
  | writeChunk (n : Nat)
  | setTimes
  | fsyncDst
  | unlinkSrc
  | makeSymlink
deriving DecidableEq, Repr

/-- Outcome of the initial `rename(src, dst)` call (mnf.c:514-515). -/
inductive RenameRes where
  | ok
  | exdev
  | errOther
deriving DecidableEq, Repr

/-- One event of the read/write loop of `copy_file_rw` (mnf.c:471-487):
a fully written chunk of `n` bytes, a failed write, or a failed read. -/
inductive Ev where
  | chunk (n : Nat)
  | wfail
  | rfail
deriving DecidableEq, Repr

/-- The read/write loop of `copy_file_rw` (mnf.c:471-489): return code,
trace of successful chunk writes, and bytes passed to `add_bytes`. -/
def copyLoop : List Ev → Int × List Act × Nat
  | [] => (0, [], 0)
  | .chunk n :: rest =>
    ((copyLoop rest).1, .writeChunk n :: (copyLoop rest).2.1,
     n + (copyLoop rest).2.2)
  | .wfail :: _ => (-1, [], 0)
  | .rfail :: _ => (-1, [], 0)

/-- Whether the copy loop runs to a clean end-of-file. -/
def copyOk : List Ev → Bool
  | [] => true
  | .chunk _ :: rest => copyOk rest
  | _ => false

/-- The chunk writes performed before the first failure. -/
def writtenActs : List Ev → List Act
  | .chunk n :: rest => .writeChunk n :: writtenActs rest
  | _ => []

/-- The bytes counted by `add_bytes` before the first failure. -/
def chunkPrefixSum : List Ev → Nat
  | .chunk n :: rest => n + chunkPrefixSum rest
  | _ => 0

/-- Embeds `copy_file_rw` (mnf.c:461-502): open source, create/truncate destination,
stream the chunks, then (on success) optionally copy timestamps and fsync. -/
def copy_file_rw (openInOk openOutOk preserve_times : Bool) (evs : List Ev) :
    Int × List Act × Nat :=
  if !openInOk then (-1, [], 0)
  else if !openOutOk then (-1, [.createDst], 0)
  else if (copyLoop evs).1 < 0 then
    (-1, .createDst :: (copyLoop evs).2.1, (copyLoop evs).2.2)
  else
    (0, .createDst :: (copyLoop evs).2.1 ++
      (if preserve_times then [.setTimes] else []) ++ [.fsyncDst],
     (copyLoop evs).2.2)

/-- The best-effort destination unlink of overwrite mode (mnf.c:507,513). -/
def movePre (overwrite : Bool) : List Act :=
  if overwrite then [Act.unlinkDst] else []

/-- Embeds `move_symlink` (mnf.c:503-511): read the link target, optionally unlink
the destination, recreate the link, then unlink the original. -/
def move_symlink (readlinkOk overwrite symlinkOk unlinkOk : Bool) :
    Int × List Act :=
  if !readlinkOk then (-1, [])
  else if !symlinkOk then (-1, movePre overwrite ++ [.makeSymlink])
  else if !unlinkOk then (-1, movePre overwrite ++ [.makeSymlink, .unlinkSrc])
  else (0, movePre overwrite ++ [.makeSymlink, .unlinkSrc])

/-- Embeds `move_file_with_modes` (mnf.c:512-521): optional overwrite-unlink, then
`rename`; on `EXDEV` fall back to `stat` + `copy_file_rw` + `unlink(src)`. -/
def move_file_with_modes (overwrite : Bool) (rr : RenameRes)
    (statOk openInOk openOutOk : Bool) (evs : List Ev)
    (preserve_times unlinkOk : Bool) : Int × List Act × Nat :=
  match rr with
  | .ok => (0, movePre overwrite ++ [.rename], 0)
  | .errOther => (-1, movePre overwrite ++ [.rename], 0)
  | .exdev =>
    if !statOk then (-1, movePre overwrite ++ [.rename], 0)
    else if (copy_file_rw openInOk openOutOk preserve_times evs).1 < 0 then
      (-1, movePre overwrite ++ .rename ::
        (copy_file_rw openInOk openOutOk preserve_times evs).2.1,
       (copy_file_rw openInOk openOutOk preserve_times evs).2.2)
    else if unlinkOk then
      (0, movePre overwrite ++ .rename ::
        (copy_file_rw openInOk openOutOk preserve_times evs).2.1 ++
        [.unlinkSrc],
       (copy_file_rw openInOk openOutOk preserve_times evs).2.2)
    else
      (-1, movePre overwrite ++ .rename ::
        (copy_file_rw openInOk openOutOk preserve_times evs).2.1 ++
        [.unlinkSrc],
       (copy_file_rw openInOk openOutOk preserve_times evs).2.2)

/-! ## Worker (mnf.c lines 604-649) -/

/-- The statistics delta one job contributes (mnf.c:449-458): exactly one of
`moved`/`skipped`/`failed` is incremented per job, plus the bytes counted by
`add_bytes` during a fallback copy. -/
structure Delta where
  moved : Nat
  skipped : Nat
  failed : Nat
  bytes : Nat
deriving DecidableEq, Repr

/-- Syscall-outcome oracle for one job's relocation. -/
structure WorkerEnv where
  rr : RenameRes
  statOk : Bool
  openInOk : Bool
  openOutOk : Bool
  evs : List Ev
  unlinkOk : Bool
  readlinkOk : Bool
  symlinkOk : Bool
  slUnlinkOk : Bool
deriving Repr

/-- The tail of the worker loop body (mnf.c:626-646): skip was already
decided; apply the dry-run short-circuit, otherwise run the executor and
bump the matching counter.  Returns the trace of attempted mutating
syscalls, the statistics delta, and the reported target path. -/
def worker_act (o : options_t) (env : WorkerEnv) (j : job_t)
    (target : List Char) (overwrite : Bool) : List Act × Delta × List Char :=
  if o.dry_run then ([], ⟨0, 1, 0, 0⟩, target)
  else if j.is_symlink then
    ((move_symlink env.readlinkOk overwrite env.symlinkOk env.slUnlinkOk).2,
     if (move_symlink env.readlinkOk overwrite env.symlinkOk
          env.slUnlinkOk).1 = 0 then ⟨1, 0, 0, 0⟩ else ⟨0, 0, 1, 0⟩,
     target)
  else
    ((move_file_with_modes overwrite env.rr env.statOk env.openInOk
        env.openOutOk env.evs o.preserve_times env.unlinkOk).2.1,
     (if (move_file_with_modes overwrite env.rr env.statOk env.openInOk
          env.openOutOk env.evs o.preserve_times env.unlinkOk).1 = 0
      then ⟨1, 0, 0, (move_file_with_modes overwrite env.rr env.statOk
        env.openInOk env.openOutOk env.evs o.preserve_times env.unlinkOk).2.2⟩
      else ⟨0, 0, 1, (move_file_with_modes overwrite env.rr env.statOk
        env.openInOk env.openOutOk env.evs o.preserve_times env.unlinkOk).2.2⟩),
     target)

/-- One iteration of `worker_main` for one job (mnf.c:607-646): derive the
target per collision mode (literal for skip/overwrite, allocator-derived for
rename), honour the skip-mode existence test, then `worker_act`.  `none`
models only allocator fuel exhaustion (the unbounded C loop). -/
def worker_one (o : options_t) (ex : List Char → Bool) (env : WorkerEnv)
    (dst_canon : List Char) (ufuel : Nat) (j : job_t) :
    Option (List Act × Delta × List Char) :=
  match o.mode with
  | .MODE_SKIP =>
    if ex (path_join dst_canon (basename_const j.rel_path)) then
      some ([], ⟨0, 1, 0, 0⟩, path_join dst_canon (basename_const j.rel_path))
    else
      some (worker_act o env j
        (path_join dst_canon (basename_const j.rel_path)) false)
  | .MODE_OVERWRITE =>
    some (worker_act o env j
      (path_join dst_canon (basename_const j.rel_path)) true)
  | .MODE_RENAME =>
    match unique_path ex dst_canon (basename_const j.rel_path) ufuel with
    | none => none
    | some t => some (worker_act o env j t false)

/-! ## Exit status (mnf.c lines 44-51, 652-693) -/

/-- The fatal configuration errors of `main` and `parse_options`
(mnf.c:294,306-309,314,655-658): bad usage exits through
`print_usage_short`/`exit(2)`; everything else exits through `die`, which
uses `EXIT_FAILURE`. -/
inductive ConfigErr where
  | usage
  | badOptionValue
  | srcNotFound
  | dstCreateFail
  | dstResolveFail
  | dstNoWrite
deriving DecidableEq, Repr

/-- Exit status of `die` (mnf.c:50): `EXIT_FAILURE`, i.e. 1. -/
def die_status : Nat := 1

/-- Exit status of a usage error (mnf.c:310,314): `exit(2)`. -/
def usage_status : Nat := 2

/-- The exit behaviour of `main` (mnf.c:652-693): a configuration error
terminates before any traversal with `die`/`exit(2)`; otherwise the process
runs and returns `EXIT_FAILURE` iff the failed counter is positive.  The
second component records whether `traverse_and_queue` was reached. -/
def main_exit : Option ConfigErr → Nat → Nat × Bool
  | some .usage, _ => (usage_status, false)
  | some _, _ => (die_status, false)
  | none, failed => ((if 0 < failed then 1 else 0), true)

/-! ## Traversal and pruning (mnf.c lines 523-601)

The filesystem is a map from directory path to its entry list (`none` models
an `opendir` failure); `canon` models `realpath` (`none` is a failure, logged
and skipped by the C code).  Recursion carries explicit fuel: the C recursion
is bounded by the (finite, acyclic once symlinks are never followed)
directory tree, and every theorem below holds for every fuel value.
`rmdir` of an empty directory is assumed to succeed; a failure only leaves
more directories behind, which the C code tolerates silently. -/

/-- What `lstat` reports for a directory entry (mnf.c:574-576,586,591):
regular file, symlink (with the link's own stat), directory, another file
type, or an `lstat` failure (entry skipped). -/
inductive Kind where
  | reg (st : StatRec)
  | sym (st : StatRec)
  | dir
  | other
  | statErr
deriving DecidableEq, Repr

/-- Embeds `is_under` (mnf.c:527-531): `prefix` is an initial segment of `path`
followed by end-of-string or `/`. -/
def is_under : List Char → List Char → Bool
  | [], [] => true
  | c :: _, [] => decide (c = '/')
  | [], _ :: _ => false
  | b :: path', a :: pre' => decide (b = a) && is_under path' pre'

/-- The `rel` computation of the walker (mnf.c:571-572). -/
def relOf (relbase name : List Char) : List Char :=
  if relbase.isEmpty then name else path_join relbase name

/-- Handling of one directory entry by `traverse_and_queue` (mnf.c:567-599):
returns the jobs pushed and the subdirectories recursed into, with `rec`
standing for the recursive call. -/
def handleEntry (fm : List Char → List Char → Bool) (o : options_t)
    (canon : List Char → Option (List Char)) (dst : List Char)
    (rec : List Char → Nat → List Char → List job_t × List (List Char))
    (dir : List Char) (depth : Nat) (relbase name : List Char) (k : Kind) :
    List job_t × List (List Char) :=
  match k with
  | .statErr => ([], [])
  | .other => ([], [])
  | .sym st =>
    if o.include_symlinks = false then ([], [])
    else if 0 ≤ o.max_depth ∧ o.max_depth < (depth : Int) then ([], [])
    else if o.min_depth ≤ depth then
      if file_passes_filters fm o (relOf relbase name) st name = true then
        ([⟨path_join dir name, relOf relbase name, depth, true⟩], [])
      else ([], [])
    else ([], [])
  | .dir =>
    match canon (path_join dir name) with
    | none => ([], [])
    | some c =>
      if is_under c dst = true then ([], [])
      else if 0 ≤ o.max_depth ∧ o.max_depth ≤ (depth : Int) then ([], [])
      else ((rec (path_join dir name) (depth + 1) (relOf relbase name)).1,
            path_join dir name ::
              (rec (path_join dir name) (depth + 1) (relOf relbase name)).2)
  | .reg st =>
    if 0 ≤ o.max_depth ∧ o.max_depth < (depth : Int) then ([], [])
    else if o.min_depth ≤ depth then
      if file_passes_filters fm o (relOf relbase name) st name = true then
        ([⟨path_join dir name, relOf relbase name, depth, false⟩], [])
      else ([], [])
    else ([], [])

/-- The `readdir` loop of `traverse_and_queue`, entry results concatenated in
discovery order. -/
def goEntries (fm : List Char → List Char → Bool) (o : options_t)
    (canon : List Char → Option (List Char)) (dst : List Char)
    (rec : List Char → Nat → List Char → List job_t × List (List Char)) :
    List (List Char × Kind) → List Char → Nat → List Char →
      List job_t × List (List Char)
  | [], _, _, _ => ([], [])
  | (name, k) :: rest, dir, depth, relbase =>
    ((handleEntry fm o canon dst rec dir depth relbase name k).1 ++
      (goEntries fm o canon dst rec rest dir depth relbase).1,
     (handleEntry fm o canon dst rec dir depth relbase name k).2 ++
      (goEntries fm o canon dst rec rest dir depth relbase).2)

/-- Embeds `traverse_and_queue` (mnf.c:562-601): open the directory, walk its
entries, recurse into acceptable subdirectories at `depth + 1`.  Returns the
pushed jobs in push order and the list of directories recursed into. -/
def traverse_and_queue (fm : List Char → List Char → Bool) (o : options_t)
    (fs : List Char → Option (List (List Char × Kind)))
    (canon : List Char → Option (List Char)) (dst : List Char) :
    Nat → List Char → Nat → List Char → List job_t × List (List Char)
  | 0, _, _, _ => ([], [])
  | fuel + 1, dir, depth, relbase =>
    match fs dir with
    | none => ([], [])
    | some es =>
      goEntries fm o canon dst
        (fun d dep r => traverse_and_queue fm o fs canon dst fuel d dep r)
        es dir depth relbase

/-- Embeds `path_is_empty_dir` as evaluated after pruning (mnf.c:532-541,553): the directory
still opens and every entry was a subdirectory that has been removed. -/
def emptyAfter (fs : List Char → Option (List (List Char × Kind)))
    (p : List Char) (removed : List (List Char)) : Bool :=
  match fs p with
  | none => false
  | some es =>
    es.all (fun e =>
      (match e.2 with | Kind.dir => true | _ => false) &&
      decide (path_join p e.1 ∈ removed))

/-- The entry loop of `prune_empty` (mnf.c:545-556): returns the
subdirectories descended into and the directories removed, with `rec`
standing for the recursive call. -/
def pruneEntries (fs : List Char → Option (List (List Char × Kind)))
    (canon : List Char → Option (List Char)) (dst : List Char)
    (rec : List Char → List (List Char) × List (List Char)) :
    List (List Char × Kind) → List Char →
      List (List Char) × List (List Char)
  | [], _ => ([], [])
  | (name, k) :: rest, dir =>
    match k with
    | .dir =>
      match canon (path_join dir name) with
      | none => pruneEntries fs canon dst rec rest dir
      | some c =>
        if is_under c dst = true then pruneEntries fs canon dst rec rest dir
        else
          (path_join dir name :: (rec (path_join dir name)).1 ++
            (pruneEntries fs canon dst rec rest dir).1,
           (if emptyAfter fs (path_join dir name)
                (rec (path_join dir name)).2 = true
            then [path_join dir name] else []) ++
            (rec (path_join dir name)).2 ++
            (pruneEntries fs canon dst rec rest dir).2)
    | _ => pruneEntries fs canon dst rec rest dir

/-- Embeds `prune_empty` (mnf.c:542-557): bottom-up removal of now-empty
subdirectories, skipping anything whose canonical path lies in the
destination subtree.  Returns (directories descended into, directories
removed). -/
def prune_empty (fs : List Char → Option (List (List Char × Kind)))
    (canon : List Char → Option (List Char)) (dst : List Char) :
    Nat → List Char → List (List Char) × List (List Char)
  | 0, _ => ([], [])
  | fuel + 1, dir =>
    match fs dir with
    | none => ([], [])
    | some es =>
      pruneEntries fs canon dst
        (fun d => prune_empty fs canon dst fuel d) es dir

/-- A concrete source tree for witnesses: `/s` holds subdirectory `a` (with
`g.txt`), the destination `d` nested inside the source, and top-level
`f.txt`. -/
def fs0 : List Char → Option (List (List Char × Kind)) := fun p =>
  if p = "/s".toList then
    some [("a".toList, Kind.dir), ("d".toList, Kind.dir),
          ("f.txt".toList, Kind.reg ⟨10, 0⟩)]
  else if p = "/s/a".toList then some [("g.txt".toList, Kind.reg ⟨5, 0⟩)]
  else if p = "/s/d".toList then some []
  else none

/-- Identity canonicalization (no symlinked directories in the witness tree). -/
def canon0 : List Char → Option (List Char) := fun p => some p

/-- A glob oracle that never matches (no glob patterns are configured in the
witness options anyway). -/
def fm0 : List Char → List Char → Bool := fun _ _ => false

/-! ## Lemmas about the filter helpers -/

theorem match_any_glob_eq_true (fm : List Char → List Char → Bool)
    (rel : List Char) (gs : List (List Char)) :
    match_any_glob fm rel gs = true ↔ (gs = [] ∨ ∃ g ∈ gs, fm g rel = true) := by
  cases gs with
  | nil => simp [match_any_glob]
  | cons a l => simp [match_any_glob, List.any_eq_true]

theorem match_any_exclude_eq_true (fm : List Char → List Char → Bool)
    (rel : List Char) (gs : List (List Char)) :
    match_any_exclude fm rel gs = true ↔ ∃ g ∈ gs, fm g rel = true := by
  simp [match_any_exclude, List.any_eq_true]

/-- Rewrites `file_passes_filters` as one boolean conjunction of its guard clauses. -/
theorem file_passes_filters_eq (fm : List Char → List Char → Bool)
    (o : options_t) (rel : List Char) (st : StatRec) (name : List Char) :
    file_passes_filters fm o rel st name =
      ((o.includes.isEmpty || match_any_glob fm rel o.includes) &&
       !match_any_exclude fm rel o.excludes &&
       (o.allow_ext.isEmpty ||
         ((ext_of name).isSome &&
          list_contains_ci o.allow_ext ((ext_of name).getD []))) &&
       !((ext_of name).isSome && !o.deny_ext.isEmpty &&
          list_contains_ci o.deny_ext ((ext_of name).getD [])) &&
       (!o.has_min_size || decide (o.min_size ≤ st.st_size)) &&
       (!o.has_max_size || decide (st.st_size ≤ o.max_size)) &&
       (!o.has_newer || decide (o.newer_than ≤ st.st_mtime)) &&
       (!o.has_older || decide (st.st_mtime ≤ o.older_than))) := by
  rw [file_passes_filters]
  split_ifs with h1 h2 h3 h4 h5 h6 h7 h8
  · rw [Bool.and_eq_true, Bool.not_eq_true', Bool.not_eq_true'] at h1
    simp [h1.1, h1.2]
  · simp [h2]
  · rw [Bool.and_eq_true, Bool.not_eq_true'] at h3
    rcases Bool.or_eq_true _ _ |>.mp h3.2 with h | h
    · rw [Option.isNone_iff_eq_none] at h
      simp [h3.1, h]
    · rw [Bool.not_eq_true'] at h
      simp [h3.1, h]
  · simp [h4]
  · rw [Bool.and_eq_true, decide_eq_true_eq] at h5
    simp [h5.1, decide_eq_false (not_le.mpr h5.2)]
  · rw [Bool.and_eq_true, decide_eq_true_eq] at h6
    simp [h6.1, decide_eq_false (not_le.mpr h6.2)]
  · rw [Bool.and_eq_true, decide_eq_true_eq] at h7
    simp [h7.1, decide_eq_false (not_le.mpr h7.2)]
  · rw [Bool.and_eq_true, decide_eq_true_eq] at h8
    simp [h8.1, decide_eq_false (not_le.mpr h8.2)]
  · rw [Bool.not_eq_true] at h1 h3 h4 h5 h6 h7 h8
    rw [Bool.not_eq_true] at h2
    symm
    simp only [Bool.and_eq_true]
    refine ⟨⟨⟨⟨⟨⟨⟨?_, ?_⟩, ?_⟩, ?_⟩, ?_⟩, ?_⟩, ?_⟩, ?_⟩
    · revert h1
      cases o.includes.isEmpty <;> cases match_any_glob fm rel o.includes <;> simp
    · simp [h2]
    · revert h3
      cases o.allow_ext.isEmpty <;> cases hx : ext_of name <;>
        cases hc : list_contains_ci o.allow_ext ((ext_of name).getD []) <;>
        simp_all
    · simp [h4]
    · revert h5
      cases o.has_min_size <;> simp [not_lt, decide_eq_true_eq]
    · revert h6
      cases o.has_max_size <;> simp [not_lt, decide_eq_true_eq]
    · revert h7
      cases o.has_newer <;> simp [not_lt, decide_eq_true_eq]
    · revert h8
      cases o.has_older <;> simp [not_lt, decide_eq_true_eq]

theorem inc_conj_iff (fm : List Char → List Char → Bool) (rel : List Char)
    (gs : List (List Char)) :
    (gs.isEmpty || match_any_glob fm rel gs) = true ↔
      (gs ≠ [] → ∃ g ∈ gs, fm g rel = true) := by
  cases gs with
  | nil => simp [match_any_glob]
  | cons a l =>
    simp only [List.isEmpty_cons, Bool.false_or, match_any_glob,
      List.any_eq_true]
    exact ⟨fun h _ => h, fun h => h (List.cons_ne_nil a l)⟩

theorem exc_conj_iff (fm : List Char → List Char → Bool) (rel : List Char)
    (gs : List (List Char)) :
    (!match_any_exclude fm rel gs) = true ↔ ∀ g ∈ gs, fm g rel = false := by
  rw [Bool.not_eq_true', match_any_exclude]
  constructor
  · intro h g hg
    cases hfm : fm g rel
    · rfl
    · have : gs.any (fun g => fm g rel) = true := List.any_eq_true.2 ⟨g, hg, hfm⟩
      rw [h] at this
      exact absurd this Bool.false_ne_true
  · intro h
    cases hany : gs.any (fun g => fm g rel)
    · rfl
    · rcases List.any_eq_true.1 hany with ⟨g, hg, hfm⟩
      rw [h g hg] at hfm
      exact absurd hfm Bool.false_ne_true

theorem allow_conj_iff (al : List (List Char)) (x : Option (List Char)) :
    (al.isEmpty || (x.isSome && list_contains_ci al (x.getD []))) = true ↔
      (al ≠ [] → ∃ e, x = some e ∧ list_contains_ci al e = true) := by
  cases x <;> cases al <;> simp [list_contains_ci]

theorem deny_conj_iff (dl : List (List Char)) (x : Option (List Char)) :
    (!(x.isSome && !dl.isEmpty && list_contains_ci dl (x.getD []))) = true ↔
      (∀ e, x = some e → list_contains_ci dl e = false) := by
  cases x <;> cases dl <;> simp [list_contains_ci]

theorem bound_conj_iff (b : Bool) (x y : Int) :
    (!b || decide (x ≤ y)) = true ↔ (b = true → x ≤ y) := by
  cases b <;> simp

/-- C4: the Filter Engine accepts exactly the conjunction of the configured
predicates — include globs (at least one match when configured), exclude globs
(no match), allow extensions (extension present and case-insensitively listed;
extensionless files rejected), deny extensions (extension not listed),
inclusive size bounds and inclusive modification-time bounds — and an
unconfigured category imposes no constraint.  It is a pure function of
`(rel, st, name)` by construction. -/
theorem C4_filter_engine_iff (fm : List Char → List Char → Bool)
    (o : options_t) (rel : List Char) (st : StatRec) (name : List Char) :
    file_passes_filters fm o rel st name = true ↔
      ((o.includes ≠ [] → ∃ g ∈ o.includes, fm g rel = true) ∧
       (∀ g ∈ o.excludes, fm g rel = false) ∧
       (o.allow_ext ≠ [] →
         ∃ e, ext_of name = some e ∧ list_contains_ci o.allow_ext e = true) ∧
       (∀ e, ext_of name = some e → list_contains_ci o.deny_ext e = false) ∧
       (o.has_min_size = true → o.min_size ≤ st.st_size) ∧
       (o.has_max_size = true → st.st_size ≤ o.max_size) ∧
       (o.has_newer = true → o.newer_than ≤ st.st_mtime) ∧
       (o.has_older = true → st.st_mtime ≤ o.older_than)) := by
  rw [file_passes_filters_eq]
  simp only [Bool.and_eq_true]
  rw [inc_conj_iff, exc_conj_iff, allow_conj_iff, deny_conj_iff,
    bound_conj_iff, bound_conj_iff, bound_conj_iff, bound_conj_iff]
  tauto

/-! ## Unique-name allocator: C1 and C10 -/

theorem lastIdxOf_eq_none (c : Char) (l : List Char) (h : c ∉ l) :
    lastIdxOf c l = none := by
  induction l with
  | nil => rfl
  | cons a rest ih =>
    rw [List.mem_cons, not_or] at h
    rw [lastIdxOf, ih h.2]
    simp [Ne.symm h.1]

/-- Lemma: `split_name` computes exactly the specification's stem/extension split. -/
theorem split_name_eq_spec (name : List Char) :
    split_name name = splitNameSpec name := by
  rw [split_name, splitNameSpec]
  rcases h : lastIdxOf '.' name with _ | i
  · simp only [h]
    split_ifs <;> rfl
  · cases i with
    | zero =>
      simp only [h]
      split_ifs <;> rfl
    | succ i =>
      simp only [h]
      rw [if_neg]
      rintro ⟨-, h' | h'⟩ <;> simp at h'

theorem uniqueLoop_min (ex : List Char → Bool) (dest_dir base ext : List Char) :
    ∀ (fuel n m : Nat), n ≤ m →
      ex (cand dest_dir base ext m) = false →
      (∀ k, n ≤ k → k < m → ex (cand dest_dir base ext k) = true) →
      m - n < fuel →
      uniqueLoop ex dest_dir base ext fuel n = some (cand dest_dir base ext m) := by
  intro fuel
  induction fuel with
  | zero => omega
  | succ fuel ih =>
    intro n m hnm hm hmin hlt
    rw [uniqueLoop]
    by_cases hc : ex (cand dest_dir base ext n) = true
    · have hne : n ≠ m := by
        intro he
        rw [he, hm] at hc
        exact Bool.false_ne_true hc
      rw [if_pos hc]
      exact ih (n + 1) m (by omega) hm
        (fun k hk1 hk2 => hmin k (by omega) hk2) (by omega)
    · have hme : m = n := by
        rcases Nat.lt_or_ge n m with hl | hg
        · exact absurd (hmin n le_rfl hl) hc
        · omega
      rw [Bool.not_eq_true] at hc
      rw [if_neg (by rw [hc]; exact Bool.false_ne_true), hme]

/-- C1: the Unique-Name Allocator splits the desired name into stem and
extension at the last dot (a name beginning with a dot and containing no
further dot keeps the dot in the stem and has no extension), returns
`dest_dir/name` when no filesystem entry exists there, and otherwise returns
`dest_dir/stem_N.ext` for the smallest integer `N ≥ 1` at which no entry
exists (given enough loop fuel to reach that `N`). -/
theorem C1_unique_name_allocator (ex : List Char → Bool)
    (dest_dir name : List Char) (fuel : Nat) :
    (∀ nm, split_name nm = splitNameSpec nm) ∧
    (ex (path_join dest_dir name) = false →
      unique_path ex dest_dir name fuel = some (path_join dest_dir name)) ∧
    (∀ m, 1 ≤ m →
      ex (cand dest_dir (split_name name).1 (split_name name).2 m) = false →
      (∀ k, 1 ≤ k → k < m →
        ex (cand dest_dir (split_name name).1 (split_name name).2 k) = true) →
      m ≤ fuel →
      ex (path_join dest_dir name) = true →
      unique_path ex dest_dir name fuel =
        some (cand dest_dir (split_name name).1 (split_name name).2 m)) := by
  refine ⟨split_name_eq_spec, ?_, ?_⟩
  · intro h
    rcases hsp : split_name name with ⟨b, e⟩
    simp only [unique_path, hsp]
    rw [if_neg (by rw [h]; exact Bool.false_ne_true)]
  · intro m hm1 hmex hmin hfuel hfirst
    rcases hsp : split_name name with ⟨b, e⟩
    rw [hsp] at hmex hmin
    dsimp only at hmex hmin
    simp only [unique_path, hsp]
    rw [if_pos hfirst]
    exact uniqueLoop_min ex dest_dir b e fuel 1 m hm1 hmex hmin (by omega)

/-- Witness for C1 at a concrete input: in a destination already holding
`a.txt` and `a_1.txt`, the allocator yields `a_2.txt`. -/
theorem C1_unique_name_allocator_witness :
    unique_path
      (fun p => decide (p = "/dst/a.txt".toList) ||
                decide (p = "/dst/a_1.txt".toList))
      "/dst".toList "a.txt".toList 2 =
      some ("/dst/a_2.txt".toList) := by
  have h := (C1_unique_name_allocator
    (fun p => decide (p = "/dst/a.txt".toList) ||
              decide (p = "/dst/a_1.txt".toList))
    "/dst".toList "a.txt".toList 2).2.2 2 (by decide) (by decide)
    (fun k hk1 hk2 => by
      have : k = 1 := by omega
      subst this
      decide)
    (by decide) (by decide)
  rw [h]
  decide

/-- C10: a name whose only dot is its leading character has no extension:
with an allow-extension set configured the file is always rejected, and the
deny-extension set can never affect the outcome. -/
theorem C10_leading_dot_extensionless (rest : List Char) (h : '.' ∉ rest) :
    ext_of ('.' :: rest) = none ∧
    (∀ fm o rel st, o.allow_ext ≠ [] →
      file_passes_filters fm o rel st ('.' :: rest) = false) ∧
    (∀ fm (o : options_t) rel st,
      file_passes_filters fm o rel st ('.' :: rest) =
        file_passes_filters fm {o with deny_ext := []} rel st ('.' :: rest)) := by
  have hnone : ext_of ('.' :: rest) = none := by
    rw [ext_of, lastIdxOf, lastIdxOf_eq_none '.' rest h]
    rfl
  refine ⟨hnone, ?_, ?_⟩
  · intro fm o rel st hne
    rcases ha : o.allow_ext with _ | ⟨a, l⟩
    · exact absurd ha hne
    · rw [file_passes_filters_eq]
      simp [hnone, ha]
  · intro fm o rel st
    rw [file_passes_filters_eq, file_passes_filters_eq]
    simp [hnone]

/-- Witness for C10 at the concrete name `.bashrc`. -/
theorem C10_leading_dot_extensionless_witness :
    ('.' ∉ "bashrc".toList) ∧ ext_of ('.' :: "bashrc".toList) = none :=
  ⟨by decide, (C10_leading_dot_extensionless "bashrc".toList (by decide)).1⟩

theorem runQ_append (ops1 : List QOp) :
    ∀ (s : QState) (ops2 : List QOp),
      runQ s (ops1 ++ ops2) =
        ((runQ (runQ s ops1).1 ops2).1,
         (runQ s ops1).2 ++ (runQ (runQ s ops1).1 ops2).2) := by
  induction ops1 with
  | nil => intro s ops2; simp [runQ]
  | cons op rest ih =>
    intro s ops2
    cases op with
    | push j => simpa [runQ] using ih (push_job s j) ops2
    | finish => simpa [runQ] using ih (finish_jobs s) ops2
    | pop =>
      rcases s with ⟨jobs, done⟩
      cases jobs with
      | nil =>
        cases done <;>
          · simp only [List.cons_append, runQ, pop_job]
            exact ih _ ops2
      | cons j rest' =>
        simp only [List.cons_append, runQ, pop_job, List.append_eq]
        simp [ih ⟨rest', done⟩ ops2]

theorem runQ_invariant (ops : List QOp) :
    ∀ s : QState,
      (runQ s ops).2 ++ (runQ s ops).1.jobs = s.jobs ++ pushedOf ops := by
  induction ops with
  | nil => intro s; simp [runQ, pushedOf]
  | cons op rest ih =>
    intro s
    cases op with
    | push j =>
      simp only [runQ, pushedOf, List.filterMap_cons]
      have := ih (push_job s j)
      simp only [push_job] at this
      simpa [pushedOf, List.append_assoc] using this
    | finish =>
      simp only [runQ, pushedOf, List.filterMap_cons]
      have := ih (finish_jobs s)
      simpa [finish_jobs, pushedOf] using this
    | pop =>
      rcases s with ⟨jobs, done⟩
      cases jobs with
      | nil =>
        cases done <;>
          · simp only [runQ, pop_job, pushedOf, List.filterMap_cons]
            simpa [pushedOf] using ih _
      | cons j rest' =>
        simp only [runQ, pop_job, pushedOf, List.filterMap_cons]
        rcases h1 : runQ ⟨rest', done⟩ rest with ⟨sf, got⟩
        have := ih ⟨rest', done⟩
        rw [h1] at this
        simp only at this
        simp [this, pushedOf]

theorem runQ_done (ops : List QOp) :
    ∀ s : QState, (runQ s ops).1.done = (s.done || ops.any isFinish) := by
  induction ops with
  | nil => intro s; simp [runQ]
  | cons op rest ih =>
    intro s
    cases op with
    | push j => simp [runQ, ih, push_job, isFinish]
    | finish => simp [runQ, ih, finish_jobs, isFinish]
    | pop =>
      rcases s with ⟨jobs, done⟩
      cases jobs with
      | nil =>
        cases done <;> simp [runQ, pop_job, ih, isFinish]
      | cons j rest' =>
        simp only [runQ, pop_job]
        rcases h1 : runQ ⟨rest', done⟩ rest with ⟨sf, got⟩
        have := ih ⟨rest', done⟩
        rw [h1] at this
        simpa [isFinish] using this

theorem runQ_pushes (js : List job_t) :
    ∀ s : QState, runQ s (js.map QOp.push) = ({ s with jobs := s.jobs ++ js }, []) := by
  induction js with
  | nil => intro s; simp [runQ]
  | cons j rest ih =>
    intro s
    simp only [List.map_cons, runQ, push_job]
    rw [ih]
    simp

theorem runQ_drain (k : Nat) :
    ∀ js : List job_t,
      runQ ⟨js, true⟩ (List.replicate k QOp.pop) = (⟨js.drop k, true⟩, js.take k) := by
  induction k with
  | zero => intro js; simp [runQ]
  | succ k ih =>
    intro js
    cases js with
    | nil => simp only [List.replicate_succ, runQ, pop_job, if_pos]; rw [ih]; simp
    | cons j rest => simp only [List.replicate_succ, runQ, pop_job]; rw [ih]; simp

/-- C5: the Job Queue is FIFO and lossless — over any linearized operation
sequence, the jobs received by pops followed by the jobs still queued equal
the initial queue contents followed by the pushed jobs in push order (no
reordering, coalescing or dropping); the done flag is raised only by
`finish_jobs` and never lowered; a pop on a non-empty queue takes the head, a
pop on an empty queue blocks leaving the state unchanged unless done is set,
in which case it reports end-of-stream; and under `main`'s producer
discipline (all pushes, then one finish, then pure draining) `k` pops deliver
exactly the first `k` pushed jobs in order with done irreversibly set. -/
theorem C5_job_queue_fifo :
    (∀ (ops : List QOp) (s : QState),
      (runQ s ops).2 ++ (runQ s ops).1.jobs = s.jobs ++ pushedOf ops) ∧
    (∀ (ops : List QOp) (s : QState),
      (runQ s ops).1.done = (s.done || ops.any isFinish)) ∧
    (∀ (j : job_t) (rest : List job_t) (d : Bool),
      pop_job ⟨j :: rest, d⟩ = (.got j, ⟨rest, d⟩)) ∧
    (pop_job ⟨[], false⟩ = (.blocked, ⟨[], false⟩)) ∧
    (pop_job ⟨[], true⟩ = (.eos, ⟨[], true⟩)) ∧
    (∀ (js : List job_t) (k : Nat),
      runQ ⟨[], false⟩ (mainOps js k) = (⟨js.drop k, true⟩, js.take k)) := by
  refine ⟨fun ops s => runQ_invariant ops s, fun ops s => runQ_done ops s,
    fun j rest d => rfl, rfl, rfl, fun js k => ?_⟩
  rw [mainOps, runQ_append, runQ_pushes]
  have h2 : runQ (⟨([] : List job_t) ++ js, false⟩ : QState)
      (QOp.finish :: List.replicate k QOp.pop) = (⟨js.drop k, true⟩, js.take k) := by
    simp only [List.nil_append, runQ, finish_jobs]
    exact runQ_drain k js
  rw [h2]
  simp

theorem copyLoop_eq (evs : List Ev) :
    copyLoop evs =
      (if copyOk evs then 0 else -1, writtenActs evs, chunkPrefixSum evs) := by
  induction evs with
  | nil => rfl
  | cons e rest ih =>
    cases e with
    | chunk n =>
      rw [copyLoop, ih]
      by_cases h : copyOk rest = true
      · simp [copyOk, writtenActs, chunkPrefixSum, h]
      · rw [Bool.not_eq_true] at h
        simp [copyOk, writtenActs, chunkPrefixSum, h]
    | wfail => rfl
    | rfail => rfl

theorem copyOk_chunks (ns : List Nat) : copyOk (ns.map Ev.chunk) = true := by
  induction ns with
  | nil => rfl
  | cons n rest ih => simpa [copyOk] using ih

theorem writtenActs_chunks (ns : List Nat) :
    writtenActs (ns.map Ev.chunk) = ns.map Act.writeChunk := by
  induction ns with
  | nil => rfl
  | cons n rest ih => simp [writtenActs, ih]

theorem chunkPrefixSum_chunks (ns : List Nat) :
    chunkPrefixSum (ns.map Ev.chunk) = ns.sum := by
  induction ns with
  | nil => rfl
  | cons n rest ih => simp [chunkPrefixSum, ih]

theorem copyOk_wfail (ns : List Nat) (tail : List Ev) :
    copyOk (ns.map Ev.chunk ++ .wfail :: tail) = false := by
  induction ns with
  | nil => rfl
  | cons n rest ih => simpa [copyOk] using ih

theorem writtenActs_wfail (ns : List Nat) (tail : List Ev) :
    writtenActs (ns.map Ev.chunk ++ .wfail :: tail) = ns.map Act.writeChunk := by
  induction ns with
  | nil => rfl
  | cons n rest ih => simp [writtenActs, ih]

theorem chunkPrefixSum_wfail (ns : List Nat) (tail : List Ev) :
    chunkPrefixSum (ns.map Ev.chunk ++ .wfail :: tail) = ns.sum := by
  induction ns with
  | nil => rfl
  | cons n rest ih => simp [chunkPrefixSum, ih]

theorem unlinkSrc_not_mem_writtenActs (evs : List Ev) :
    Act.unlinkSrc ∉ writtenActs evs := by
  induction evs with
  | nil => simp [writtenActs]
  | cons e rest ih =>
    cases e with
    | chunk n => simpa [writtenActs] using ih
    | wfail => simp [writtenActs]
    | rfail => simp [writtenActs]

theorem unlinkSrc_not_mem_copy (openInOk openOutOk preserve_times : Bool)
    (evs : List Ev) :
    Act.unlinkSrc ∉ (copy_file_rw openInOk openOutOk preserve_times evs).2.1 := by
  rw [copy_file_rw, copyLoop_eq]
  cases openInOk with
  | false => simp
  | true =>
    cases openOutOk with
    | false => simp
    | true =>
      by_cases h : copyOk evs = true
      · simp only [h, if_true, Bool.not_true, Bool.false_eq_true, if_false]
        cases preserve_times <;>
          simp [unlinkSrc_not_mem_writtenActs]
      · rw [Bool.not_eq_true] at h
        simp [h, unlinkSrc_not_mem_writtenActs]

theorem copy_rc_cases (openInOk openOutOk preserve_times : Bool)
    (evs : List Ev) :
    (copy_file_rw openInOk openOutOk preserve_times evs).1 =
      (if openInOk && openOutOk && copyOk evs then 0 else -1) := by
  rw [copy_file_rw, copyLoop_eq]
  cases openInOk with
  | false => simp
  | true =>
    cases openOutOk with
    | false => simp
    | true =>
      by_cases h : copyOk evs = true
      · simp [h]
      · rw [Bool.not_eq_true] at h
        simp [h]

theorem copy_bytes_eq (openInOk openOutOk preserve_times : Bool)
    (evs : List Ev) :
    (copy_file_rw openInOk openOutOk preserve_times evs).2.2 =
      (if openInOk && openOutOk then chunkPrefixSum evs else 0) := by
  rw [copy_file_rw, copyLoop_eq]
  cases openInOk with
  | false => simp
  | true =>
    cases openOutOk with
    | false => simp
    | true =>
      by_cases h : copyOk evs = true
      · simp [h]
      · rw [Bool.not_eq_true] at h
        simp [h]

theorem copy_acts_success (preserve_times : Bool) (ns : List Nat) :
    copy_file_rw true true preserve_times (ns.map Ev.chunk) =
      (0, Act.createDst :: ns.map Act.writeChunk ++
        (if preserve_times then [Act.setTimes] else []) ++ [Act.fsyncDst],
       ns.sum) := by
  rw [copy_file_rw, copyLoop_eq, copyOk_chunks, writtenActs_chunks,
    chunkPrefixSum_chunks]
  simp

/-- C3: for a regular-file relocation the executor attempts the atomic rename
first (right after overwrite mode's best-effort destination unlink); on
success or on a non-`EXDEV` failure nothing else is attempted — in the
failure case the job errors with the source untouched; only on `EXDEV` does
it fall back to the streaming copy (create/truncate destination, write all
chunks, optionally set timestamps, fsync), and the source unlink is attempted
exactly when that copy ran to a durably flushed completion; the return code
is zero iff the rename succeeded or the whole fallback including the source
unlink succeeded. -/
theorem C3_rename_first_exdev_fallback (overwrite statOk openInOk openOutOk
    preserve_times unlinkOk : Bool) (evs : List Ev) (ns : List Nat) :
    (move_file_with_modes overwrite .ok statOk openInOk openOutOk evs
        preserve_times unlinkOk = (0, movePre overwrite ++ [.rename], 0)) ∧
    (move_file_with_modes overwrite .errOther statOk openInOk openOutOk evs
        preserve_times unlinkOk = (-1, movePre overwrite ++ [.rename], 0)) ∧
    (move_file_with_modes overwrite .exdev true true true (ns.map Ev.chunk)
        preserve_times true =
      (0, movePre overwrite ++ .rename :: .createDst :: ns.map Act.writeChunk ++
        (if preserve_times then [Act.setTimes] else []) ++
        [Act.fsyncDst, Act.unlinkSrc], ns.sum)) ∧
    (∀ rr, Act.unlinkSrc ∈ (move_file_with_modes overwrite rr statOk openInOk
        openOutOk evs preserve_times unlinkOk).2.1 ↔
      (rr = .exdev ∧ statOk = true ∧ openInOk = true ∧ openOutOk = true ∧
       copyOk evs = true)) ∧
    (∀ rr, (move_file_with_modes overwrite rr statOk openInOk openOutOk evs
        preserve_times unlinkOk).1 = 0 ↔
      (rr = .ok ∨ (rr = .exdev ∧ statOk = true ∧ openInOk = true ∧
        openOutOk = true ∧ copyOk evs = true ∧ unlinkOk = true))) ∧
    (∀ rr, ∃ tl, (move_file_with_modes overwrite rr statOk openInOk openOutOk
        evs preserve_times unlinkOk).2.1 = movePre overwrite ++ .rename :: tl) := by
  have hrc := copy_rc_cases openInOk openOutOk preserve_times evs
  have hnm := unlinkSrc_not_mem_copy openInOk openOutOk preserve_times evs
  refine ⟨rfl, rfl, ?_, ?_, ?_, ?_⟩
  · rw [move_file_with_modes]
    rw [if_neg (by simp)]
    rw [copy_acts_success]
    rw [if_neg (by simp)]
    rw [if_pos rfl]
    simp
  · intro rr
    cases rr with
    | ok =>
      rw [move_file_with_modes]
      simp only [movePre]
      constructor
      · intro hmem
        rcases List.mem_append.1 hmem with h | h
        · revert h; cases overwrite <;> simp
        · simp at h
      · rintro ⟨h, -⟩
        exact absurd h (by simp)
    | errOther =>
      rw [move_file_with_modes]
      simp only [movePre]
      constructor
      · intro hmem
        rcases List.mem_append.1 hmem with h | h
        · revert h; cases overwrite <;> simp
        · simp at h
      · rintro ⟨h, -⟩
        exact absurd h (by simp)
    | exdev =>
      rw [move_file_with_modes]
      cases statOk with
      | false =>
        rw [if_pos (by simp)]
        simp only [movePre]
        constructor
        · intro hmem
          rcases List.mem_append.1 hmem with h | h
          · revert h; cases overwrite <;> simp
          · simp at h
        · rintro ⟨-, h, -⟩
          exact absurd h (by simp)
      | true =>
        rw [if_neg (by simp)]
        by_cases hfail : (copy_file_rw openInOk openOutOk preserve_times evs).1 < 0
        · rw [if_pos hfail]
          have hbad : ¬ (openInOk = true ∧ openOutOk = true ∧ copyOk evs = true) := by
            intro ⟨h1, h2, h3⟩
            rw [hrc, h1, h2, h3] at hfail
            simp at hfail
          constructor
          · intro hmem
            exfalso
            rcases List.mem_append.1 hmem with h | h
            · revert h
              simp only [movePre]
              cases overwrite <;> simp
            · rcases List.mem_cons.1 h with h | h
              · exact absurd h.symm (by simp)
              · exact hnm h
          · rintro ⟨-, -, h1, h2, h3⟩
            exact absurd ⟨h1, h2, h3⟩ hbad
        · have hgood : openInOk = true ∧ openOutOk = true ∧ copyOk evs = true := by
            by_contra hcon
            have hb : (openInOk && openOutOk && copyOk evs) = false := by
              cases h1 : openInOk <;> cases h2 : openOutOk <;>
                cases h3 : copyOk evs <;> simp_all
            rw [hrc, hb] at hfail
            simp at hfail
          rw [if_neg hfail]
          cases unlinkOk <;> simp [hgood.1, hgood.2.1, hgood.2.2]
  · intro rr
    cases rr with
    | ok => simp [move_file_with_modes]
    | errOther => simp [move_file_with_modes]
    | exdev =>
      rw [move_file_with_modes]
      cases statOk with
      | false =>
        rw [if_pos (by simp)]
        simp
      | true =>
        rw [if_neg (by simp)]
        by_cases hfail : (copy_file_rw openInOk openOutOk preserve_times evs).1 < 0
        · rw [if_pos hfail]
          have hbad : ¬ (openInOk = true ∧ openOutOk = true ∧ copyOk evs = true) := by
            intro ⟨h1, h2, h3⟩
            rw [hrc, h1, h2, h3] at hfail
            simp at hfail
          simp only []
          constructor
          · intro h
            exact absurd h (by simp)
          · rintro (h | ⟨-, -, h1, h2, h3, -⟩)
            · exact absurd h (by simp)
            · exact absurd ⟨h1, h2, h3⟩ hbad
        · have hgood : openInOk = true ∧ openOutOk = true ∧ copyOk evs = true := by
            by_contra hcon
            have hb : (openInOk && openOutOk && copyOk evs) = false := by
              cases h1 : openInOk <;> cases h2 : openOutOk <;>
                cases h3 : copyOk evs <;> simp_all
            rw [hrc, hb] at hfail
            simp at hfail
          rw [if_neg hfail]
          cases unlinkOk with
          | false =>
            rw [if_neg (by simp)]
            simp [hgood.1, hgood.2.1, hgood.2.2]
          | true =>
            rw [if_pos rfl]
            simp [hgood.1, hgood.2.1, hgood.2.2]
  · intro rr
    cases rr with
    | ok => exact ⟨[], rfl⟩
    | errOther => exact ⟨[], rfl⟩
    | exdev =>
      rw [move_file_with_modes]
      cases statOk with
      | false =>
        rw [if_pos (by simp)]
        exact ⟨[], by simp⟩
      | true =>
        rw [if_neg (by simp)]
        by_cases hfail : (copy_file_rw openInOk openOutOk preserve_times evs).1 < 0
        · rw [if_pos hfail]
          exact ⟨(copy_file_rw openInOk openOutOk preserve_times evs).2.1, rfl⟩
        · rw [if_neg hfail]
          cases unlinkOk with
          | false =>
            rw [if_neg (by simp)]
            exact ⟨(copy_file_rw openInOk openOutOk preserve_times evs).2.1 ++
              [Act.unlinkSrc], by simp⟩
          | true =>
            rw [if_pos rfl]
            exact ⟨(copy_file_rw openInOk openOutOk preserve_times evs).2.1 ++
              [Act.unlinkSrc], by simp⟩

/-- C9: `add_bytes` is called per fully written chunk inside the copy loop,
so a copy that fails after writing some chunks still contributes those bytes
to the final `bytes_copied` total, and the pure-rename paths contribute
nothing: the counter measures bytes written through the fallback copy, not
bytes of successfully moved files. -/
theorem C9_bytes_counter_per_chunk (overwrite statOk openInOk openOutOk
    preserve_times unlinkOk : Bool) (evs tail : List Ev) (ns : List Nat) :
    ((copyLoop evs).2.2 = chunkPrefixSum evs) ∧
    ((copy_file_rw openInOk openOutOk preserve_times evs).2.2 =
      (if openInOk && openOutOk then chunkPrefixSum evs else 0)) ∧
    (move_file_with_modes overwrite .exdev true true true
        (ns.map Ev.chunk ++ .wfail :: tail) preserve_times unlinkOk =
      (-1, movePre overwrite ++ .rename :: .createDst :: ns.map Act.writeChunk,
       ns.sum)) ∧
    ((move_file_with_modes overwrite .ok statOk openInOk openOutOk evs
        preserve_times unlinkOk).2.2 = 0) ∧
    ((move_file_with_modes overwrite .errOther statOk openInOk openOutOk evs
        preserve_times unlinkOk).2.2 = 0) := by
  refine ⟨by rw [copyLoop_eq], copy_bytes_eq _ _ _ _, ?_, rfl, rfl⟩
  have hcopy : copy_file_rw true true preserve_times
      (ns.map Ev.chunk ++ .wfail :: tail) =
      (-1, Act.createDst :: ns.map Act.writeChunk, ns.sum) := by
    rw [copy_file_rw, copyLoop_eq, copyOk_wfail, writtenActs_wfail,
      chunkPrefixSum_wfail]
    simp
  rw [move_file_with_modes]
  rw [if_neg (by simp)]
  rw [hcopy]
  rw [if_pos (by simp)]

/-- C7: under dry-run every job performs zero mutating filesystem calls — in
particular nothing is removed from the source and nothing created in the
destination — and is counted as exactly one skip with its would-be target
reported. -/
theorem C7_dry_run_no_mutation (o : options_t) (ex : List Char → Bool)
    (env : WorkerEnv) (dst_canon : List Char) (ufuel : Nat) (j : job_t)
    (acts : List Act) (d : Delta) (tgt : List Char)
    (h : worker_one { o with dry_run := true } ex env dst_canon ufuel j =
      some (acts, d, tgt)) :
    acts = [] ∧ d = ⟨0, 1, 0, 0⟩ := by
  rcases o with ⟨mode, rest⟩
  cases mode with
  | MODE_SKIP =>
    rw [worker_one] at h
    by_cases hex : ex (path_join dst_canon (basename_const j.rel_path)) = true
    · rw [if_pos hex] at h
      cases h
      exact ⟨rfl, rfl⟩
    · rw [if_neg hex, worker_act, if_pos rfl] at h
      cases h
      exact ⟨rfl, rfl⟩
  | MODE_OVERWRITE =>
    rw [worker_one, worker_act, if_pos rfl] at h
    cases h
    exact ⟨rfl, rfl⟩
  | MODE_RENAME =>
    rw [worker_one] at h
    rcases hu : unique_path ex dst_canon (basename_const j.rel_path) ufuel
      with _ | t
    · rw [hu] at h
      cases h
    · rw [hu] at h
      rw [worker_act, if_pos rfl] at h
      cases h
      exact ⟨rfl, rfl⟩

/-- Witness for C7: a concrete dry-run rename-mode job against an empty
destination is a pure skip with no attempted mutation. -/
theorem C7_dry_run_no_mutation_witness :
    ([] : List Act) = [] ∧ (⟨0, 1, 0, 0⟩ : Delta) = ⟨0, 1, 0, 0⟩ :=
  C7_dry_run_no_mutation {} (fun _ => false)
    ⟨.ok, true, true, true, [], true, true, true, true⟩
    "/d".toList 0 ⟨"/s/a/f.txt".toList, "a/f.txt".toList, 1, false⟩
    [] ⟨0, 1, 0, 0⟩ ("/d/f.txt".toList) (by decide)

/-- Counterexample to C8 as stated: the claim's "distinct non-zero status"
for fatal configuration errors does not hold — `die` exits with
`EXIT_FAILURE` (1), exactly the status `main` returns after a run with
failed relocations, so the two outcomes are indistinguishable by status. -/
theorem C8_distinct_status_counterexample :
    (main_exit (some .srcNotFound) 0).1 = (main_exit none 1).1 := rfl

/-- C8 (amended): the exit status of a completed run is non-zero iff at least
one relocation failed; fatal configuration errors terminate before any
traversal with a non-zero status, but that status is `EXIT_FAILURE` (1) — the
same as the failed-relocations exit, not distinct from it — except
command-line usage errors, which exit with status 2. -/
theorem C8_exit_status :
    (∀ failed : Nat, ((main_exit none failed).1 ≠ 0 ↔ 0 < failed)) ∧
    (∀ failed : Nat, (main_exit none failed).2 = true) ∧
    (∀ (e : ConfigErr) (failed : Nat),
      (main_exit (some e) failed).1 ≠ 0 ∧ (main_exit (some e) failed).2 = false) ∧
    ((main_exit (some .srcNotFound) 0).1 = die_status ∧
     die_status = (main_exit none 1).1 ∧
     (main_exit (some .usage) 0).1 = usage_status ∧ usage_status ≠ die_status) := by
  refine ⟨fun failed => ?_, fun failed => rfl, fun e failed => ?_,
    rfl, rfl, rfl, by decide⟩
  · rw [main_exit]
    by_cases h : 0 < failed
    · simp [h]
    · simp [h]
  · cases e <;> exact ⟨by simp [main_exit, die_status, usage_status], rfl⟩

theorem is_under_iff (p q : List Char) :
    is_under p q = true ↔ (p = q ∨ ∃ rest, p = q ++ '/' :: rest) := by
  induction q generalizing p with
  | nil =>
    cases p with
    | nil => simp [is_under]
    | cons c p' => simp [is_under]
  | cons a q' ih =>
    cases p with
    | nil => simp [is_under]
    | cons b p' =>
      rw [is_under]
      simp only [Bool.and_eq_true, decide_eq_true_eq, ih, List.cons_append,
        List.cons.injEq]
      constructor
      · rintro ⟨hba, h | ⟨rest, h⟩⟩
        · exact Or.inl ⟨hba, h⟩
        · exact Or.inr ⟨rest, hba, h⟩
      · rintro (⟨hba, h⟩ | ⟨rest, hba, h⟩)
        · exact ⟨hba, Or.inl h⟩
        · exact ⟨hba, Or.inr ⟨rest, h⟩⟩

theorem handleEntry_visited (fm : List Char → List Char → Bool)
    (o : options_t) (canon : List Char → Option (List Char)) (dst : List Char)
    (rec : List Char → Nat → List Char → List job_t × List (List Char))
    (Hrec : ∀ d dep r, ∀ p ∈ (rec d dep r).2,
      ∀ c, canon p = some c → is_under c dst = false)
    (dir : List Char) (depth : Nat) (relbase name : List Char) (k : Kind) :
    ∀ p ∈ (handleEntry fm o canon dst rec dir depth relbase name k).2,
      ∀ c, canon p = some c → is_under c dst = false := by
  cases k with
  | statErr => simp [handleEntry]
  | other => simp [handleEntry]
  | sym st =>
    rw [handleEntry]
    split_ifs <;> simp
  | reg st =>
    rw [handleEntry]
    split_ifs <;> simp
  | dir =>
    rw [handleEntry]
    rcases hcanon : canon (path_join dir name) with _ | c0
    · simp
    · dsimp only
      by_cases hu : is_under c0 dst = true
      · rw [if_pos hu]
        simp
      · rw [if_neg hu]
        rw [Bool.not_eq_true] at hu
        split_ifs with hd
        · simp
        · intro p hp c hc
          rcases List.mem_cons.1 hp with hp | hp
          · subst hp
            rw [hcanon] at hc
            cases hc
            exact hu
          · exact Hrec _ _ _ p hp c hc

theorem goEntries_visited (fm : List Char → List Char → Bool)
    (o : options_t) (canon : List Char → Option (List Char)) (dst : List Char)
    (rec : List Char → Nat → List Char → List job_t × List (List Char))
    (Hrec : ∀ d dep r, ∀ p ∈ (rec d dep r).2,
      ∀ c, canon p = some c → is_under c dst = false) :
    ∀ (es : List (List Char × Kind)) (dir : List Char) (depth : Nat)
      (relbase : List Char),
      ∀ p ∈ (goEntries fm o canon dst rec es dir depth relbase).2,
        ∀ c, canon p = some c → is_under c dst = false := by
  intro es
  induction es with
  | nil => simp [goEntries]
  | cons e rest ih =>
    rcases e with ⟨name, k⟩
    intro dir depth relbase p hp c hc
    rw [goEntries] at hp
    rcases List.mem_append.1 hp with hp | hp
    · exact handleEntry_visited fm o canon dst rec Hrec dir depth relbase
        name k p hp c hc
    · exact ih dir depth relbase p hp c hc

theorem traverse_visited (fm : List Char → List Char → Bool)
    (o : options_t) (fs : List Char → Option (List (List Char × Kind)))
    (canon : List Char → Option (List Char)) (dst : List Char) :
    ∀ (fuel : Nat) (dir : List Char) (depth : Nat) (relbase : List Char),
      ∀ p ∈ (traverse_and_queue fm o fs canon dst fuel dir depth relbase).2,
        ∀ c, canon p = some c → is_under c dst = false := by
  intro fuel
  induction fuel with
  | zero => simp [traverse_and_queue]
  | succ fuel ih =>
    intro dir depth relbase
    rw [traverse_and_queue]
    rcases hfs : fs dir with _ | es
    · simp
    · exact goEntries_visited fm o canon dst _
        (fun d dep r => ih d dep r) es dir depth relbase

theorem pruneEntries_prop (fs : List Char → Option (List (List Char × Kind)))
    (canon : List Char → Option (List Char)) (dst : List Char)
    (rec : List Char → List (List Char) × List (List Char))
    (Hrec1 : ∀ d, ∀ p ∈ (rec d).1,
      ∀ c, canon p = some c → is_under c dst = false)
    (Hrec2 : ∀ d, ∀ p ∈ (rec d).2,
      ∀ c, canon p = some c → is_under c dst = false) :
    ∀ (es : List (List Char × Kind)) (dir : List Char),
      (∀ p ∈ (pruneEntries fs canon dst rec es dir).1,
        ∀ c, canon p = some c → is_under c dst = false) ∧
      (∀ p ∈ (pruneEntries fs canon dst rec es dir).2,
        ∀ c, canon p = some c → is_under c dst = false) := by
  intro es
  induction es with
  | nil => simp [pruneEntries]
  | cons e rest ih =>
    rcases e with ⟨name, k⟩
    intro dir
    cases k with
    | reg st => simpa [pruneEntries] using ih dir
    | sym st => simpa [pruneEntries] using ih dir
    | other => simpa [pruneEntries] using ih dir
    | statErr => simpa [pruneEntries] using ih dir
    | dir =>
      rw [pruneEntries]
      rcases hcanon : canon (path_join dir name) with _ | c0
      · exact ih dir
      · dsimp only
        by_cases hu : is_under c0 dst = true
        · rw [if_pos hu]
          exact ih dir
        · rw [if_neg hu]
          rw [Bool.not_eq_true] at hu
          constructor
          · intro p hp c hc
            rcases List.mem_cons.1 hp with hp | hp
            · subst hp
              rw [hcanon] at hc
              cases hc
              exact hu
            · rcases List.mem_append.1 hp with hp | hp
              · exact Hrec1 _ p hp c hc
              · exact (ih dir).1 p hp c hc
          · intro p hp c hc
            rcases List.mem_append.1 hp with hp | hp
            · rcases List.mem_append.1 hp with hp | hp
              · by_cases he : emptyAfter fs (path_join dir name)
                    (rec (path_join dir name)).2 = true
                · rw [if_pos he] at hp
                  rcases List.mem_singleton.1 hp with rfl
                  rw [hcanon] at hc
                  cases hc
                  exact hu
                · rw [if_neg he] at hp
                  simp at hp
              · exact Hrec2 _ p hp c hc
            · exact (ih dir).2 p hp c hc

theorem prune_prop (fs : List Char → Option (List (List Char × Kind)))
    (canon : List Char → Option (List Char)) (dst : List Char) :
    ∀ (fuel : Nat) (dir : List Char),
      (∀ p ∈ (prune_empty fs canon dst fuel dir).1,
        ∀ c, canon p = some c → is_under c dst = false) ∧
      (∀ p ∈ (prune_empty fs canon dst fuel dir).2,
        ∀ c, canon p = some c → is_under c dst = false) := by
  intro fuel
  induction fuel with
  | zero => simp [prune_empty]
  | succ fuel ih =>
    intro dir
    rw [prune_empty]
    rcases hfs : fs dir with _ | es
    · simp
    · exact pruneEntries_prop fs canon dst _
        (fun d => (ih d).1) (fun d => (ih d).2) es dir

/-- C2: a directory whose canonical real path equals the canonical
destination root or extends it past a path separator (exactly the `is_under`
test) is skipped everywhere: the walker never recurses into it and the
pruner neither descends into nor removes it — every directory the walker
recurses into, and every directory the pruner visits or removes, has a
canonical path with `is_under _ DST_CANON = false`. -/
theorem C2_destination_subtree_excluded (fm : List Char → List Char → Bool)
    (o : options_t) (fs : List Char → Option (List (List Char × Kind)))
    (canon : List Char → Option (List Char)) (dst : List Char) :
    (∀ c, is_under c dst = true ↔ (c = dst ∨ ∃ rest, c = dst ++ '/' :: rest)) ∧
    (∀ (fuel : Nat) (dir : List Char) (depth : Nat) (relbase : List Char),
      ∀ p ∈ (traverse_and_queue fm o fs canon dst fuel dir depth relbase).2,
        ∀ c, canon p = some c → is_under c dst = false) ∧
    (∀ (fuel : Nat) (dir : List Char),
      ∀ p ∈ (prune_empty fs canon dst fuel dir).1,
        ∀ c, canon p = some c → is_under c dst = false) ∧
    (∀ (fuel : Nat) (dir : List Char),
      ∀ p ∈ (prune_empty fs canon dst fuel dir).2,
        ∀ c, canon p = some c → is_under c dst = false) :=
  ⟨fun c => is_under_iff c dst,
   fun fuel dir depth relbase => traverse_visited fm o fs canon dst fuel dir
     depth relbase,
   fun fuel dir => (prune_prop fs canon dst fuel dir).1,
   fun fuel dir => (prune_prop fs canon dst fuel dir).2⟩

theorem handleEntry_jobs (fm : List Char → List Char → Bool)
    (o : options_t) (canon : List Char → Option (List Char)) (dst : List Char)
    (rec : List Char → Nat → List Char → List job_t × List (List Char))
    (Hrec : ∀ d dep r, ∀ j ∈ (rec d dep r).1, o.min_depth ≤ j.depth)
    (dir : List Char) (depth : Nat) (relbase name : List Char) (k : Kind) :
    ∀ j ∈ (handleEntry fm o canon dst rec dir depth relbase name k).1,
      o.min_depth ≤ j.depth := by
  cases k with
  | statErr => simp [handleEntry]
  | other => simp [handleEntry]
  | sym st =>
    rw [handleEntry]
    split_ifs with h1 h2 h3 h4 <;> simp_all
  | reg st =>
    rw [handleEntry]
    split_ifs with h1 h2 h3 <;> simp_all
  | dir =>
    rw [handleEntry]
    rcases hcanon : canon (path_join dir name) with _ | c0
    · simp
    · dsimp only
      split_ifs with h1 h2
      · simp
      · simp
      · intro j hj
        exact Hrec _ _ _ j hj

theorem goEntries_jobs (fm : List Char → List Char → Bool)
    (o : options_t) (canon : List Char → Option (List Char)) (dst : List Char)
    (rec : List Char → Nat → List Char → List job_t × List (List Char))
    (Hrec : ∀ d dep r, ∀ j ∈ (rec d dep r).1, o.min_depth ≤ j.depth) :
    ∀ (es : List (List Char × Kind)) (dir : List Char) (depth : Nat)
      (relbase : List Char),
      ∀ j ∈ (goEntries fm o canon dst rec es dir depth relbase).1,
        o.min_depth ≤ j.depth := by
  intro es
  induction es with
  | nil => simp [goEntries]
  | cons e rest ih =>
    rcases e with ⟨name, k⟩
    intro dir depth relbase j hj
    rw [goEntries] at hj
    rcases List.mem_append.1 hj with hj | hj
    · exact handleEntry_jobs fm o canon dst rec Hrec dir depth relbase
        name k j hj
    · exact ih dir depth relbase j hj

/-- C6: the walker enqueues a regular file or symlink only when its discovery
depth is at least the configured minimum, so every file shallower than
`min_depth` is never enqueued and stays in its original parent directory;
the default configuration (mirroring `parse_options`, mnf.c:253) has
`min_depth = 1`, keeping files directly in the source root in place. -/
theorem C6_min_depth_enqueue (fm : List Char → List Char → Bool)
    (o : options_t) (fs : List Char → Option (List (List Char × Kind)))
    (canon : List Char → Option (List Char)) (dst : List Char) :
    (∀ (fuel : Nat) (dir : List Char) (depth : Nat) (relbase : List Char),
      ∀ j ∈ (traverse_and_queue fm o fs canon dst fuel dir depth relbase).1,
        o.min_depth ≤ j.depth) ∧
    (({} : options_t).min_depth = 1) := by
  refine ⟨?_, rfl⟩
  intro fuel
  induction fuel with
  | zero => simp [traverse_and_queue]
  | succ fuel ih =>
    intro dir depth relbase
    rw [traverse_and_queue]
    rcases hfs : fs dir with _ | es
    · simp
    · exact goEntries_jobs fm o canon dst _
        (fun d dep r => ih d dep r) es dir depth relbase

/-- Witness for C2 at the concrete tree: the walker run recurses into
`/s/a`, and the theorem yields that its canonical path is not under the
destination `/s/d`. -/
theorem C2_destination_subtree_excluded_witness :
    is_under "/s/a".toList "/s/d".toList = false :=
  (C2_destination_subtree_excluded fm0 {} fs0 canon0 "/s/d".toList).2.1
    3 "/s".toList 0 [] "/s/a".toList (by decide) "/s/a".toList (by decide)

/-- Witness for C6 at the concrete tree: the job for `/s/a/g.txt` was
discovered at depth 1, at least the default minimum depth 1 (top-level
`f.txt` at depth 0 is not enqueued at all). -/
theorem C6_min_depth_enqueue_witness :
    ({} : options_t).min_depth ≤
      (⟨"/s/a/g.txt".toList, "a/g.txt".toList, 1, false⟩ : job_t).depth :=
  (C6_min_depth_enqueue fm0 {} fs0 canon0 "/s/d".toList).1
    3 "/s".toList 0 []
    ⟨"/s/a/g.txt".toList, "a/g.txt".toList, 1, false⟩ (by decide)

end Mnf
